import Mathlib

/-
Shallow embedding of the Go vector store (record store, insertion pipeline,
sharded top-K search and persistence).

Modelling conventions:

- `float32` values are modelled exactly by real numbers; float arithmetic is
  modelled as exact real arithmetic.
- Go's `container/heap` min-heap (root at index 0, with `Less` comparing
  scores) is modelled by its contract: a list kept sorted by ascending score.
  The root `(*h)[0]` is the head (a minimum), `heap.Push` inserts keeping the
  order, `heap.Pop` removes the head.  Which of several equal-score minima sits
  at the root is unspecified for a binary heap, and no theorem below depends
  on the order of equal scores.
- Indexing a slice out of range is a Go runtime panic; computations that can
  panic return `Option`, with `none` standing for the panic.
- Go maps from strings are modelled as association lists: lookup takes the
  first matching key, update replaces the first matching entry or appends.
  A lookup of a missing key yields the zero value, i.e. `""` for strings.
- The shard workers deliver their result chunks over a channel in completion
  order; the model below merges the chunks in worker-index order.  All
  properties proved here are insensitive to the chunk order.
- `encoding/json` and `os.ReadFile` are modelled by their documented
  contracts through the `LoadOutcome` type, see its doc comment.
-/

abbrev Vec := List ℝ

/- `SearchResult` as in the source: an id paired with a score. -/
structure SearchResult where
  id : String
  score : ℝ

/- `ResultHeap`, modelled as a list sorted by ascending score (see header). -/
abbrev Heap := List SearchResult

/- `heap.Push` on the contract model: insert keeping ascending score order. -/
noncomputable def hpush (res : SearchResult) : Heap → Heap
  | [] => [res]
  | x :: xs => if res.score ≤ x.score then res :: x :: xs else x :: hpush res xs

structure Record where
  id : String
  vector : Vec
  quantized : List ℤ
  metadata : List (String × String)
  nspace : String

structure VectorStore where
  records : List Record
  idMap : List (String × ℕ)

/- `NewVectorStore`: empty record slice, empty id map. -/
def NewVectorStore : VectorStore := ⟨[], []⟩

/- First loop of `DotProduct`: `for i := 0; i < n-3; i += 4 { sum += a[i]*b[i]
   + a[i+1]*b[i+1] + a[i+2]*b[i+2] + a[i+3]*b[i+3] }` with `n = len(a)`.
   Out-of-range reads of `b` (a length-mismatch precondition violation in the
   source) are modelled by a default of 0. -/
noncomputable def dotUnrolledFrom (a b : Vec) (i : ℕ) : ℝ :=
  if h : i + 3 < a.length then
    a.getD i 0 * b.getD i 0 + a.getD (i+1) 0 * b.getD (i+1) 0 +
      a.getD (i+2) 0 * b.getD (i+2) 0 + a.getD (i+3) 0 * b.getD (i+3) 0 +
      dotUnrolledFrom a b (i + 4)
  else 0
termination_by a.length - i
decreasing_by simp_wf; omega

/- Second loop of `DotProduct`: `for i := (n/4)*4; i < n; i++ { sum += a[i]*b[i] }`. -/
noncomputable def dotTailFrom (a b : Vec) (i : ℕ) : ℝ :=
  if h : i < a.length then a.getD i 0 * b.getD i 0 + dotTailFrom a b (i + 1)
  else 0
termination_by a.length - i
decreasing_by simp_wf; omega

/- `DotProduct`: the unrolled loop plus the scalar remainder loop. -/
noncomputable def DotProduct (a b : Vec) : ℝ :=
  dotUnrolledFrom a b 0 + dotTailFrom a b (a.length / 4 * 4)

/- Reference dot product following the spec's words: "sum of pairwise products
   over two equal-length vectors".  Used only to compare with `DotProduct`. -/
noncomputable def dotRef (a b : Vec) : ℝ :=
  (List.zipWith (fun x y => x * y) a b).sum

/- The accumulation `for _, val := range v { sum += val * val }` in `Normalize`. -/
noncomputable def sumSquares (v : Vec) : ℝ := v.foldl (fun s x => s + x * x) 0

/- `mag := float32(math.Sqrt(float64(sum)))`, modelled as the real square root. -/
noncomputable def magnitude (v : Vec) : ℝ := Real.sqrt (sumSquares v)

/- `Normalize`: return the input unchanged on zero magnitude, otherwise divide
   every component by the magnitude. -/
noncomputable def Normalize (v : Vec) : Vec :=
  if magnitude v = 0 then v else v.map (fun x => x / magnitude v)

/- Go's float-to-integer conversion truncates toward zero. -/
noncomputable def truncF32 (x : ℝ) : ℤ := if 0 ≤ x then ⌊x⌋ else ⌈x⌉

/- Reduction of an integer into the `int8` range `[-128, 127]`.  For values
   whose truncation does not fit in 8 bits the Go compiler keeps the low 8
   bits of the wider integer, i.e. wraps modulo 256. -/
def int8wrap (t : ℤ) : ℤ := (t + 128) % 256 - 128

/- `Quantize`: `res[i] = int8(val * 127.0)` componentwise. -/
noncomputable def Quantize (v : Vec) : List ℤ :=
  v.map (fun x => int8wrap (truncF32 (x * 127)))

/- Lookup in a Go `map[string]string`; a missing key yields the zero value `""`. -/
def metaLookup : List (String × String) → String → String
  | [], _ => ""
  | p :: m, key => if p.1 = key then p.2 else metaLookup m key

/- Lookup in the Go `map[string]int` id map (`idx, exists := vs.IDMap[id]`). -/
def mapLookup : List (String × ℕ) → String → Option ℕ
  | [], _ => none
  | p :: m, id => if p.1 = id then some p.2 else mapLookup m id

/- Assignment `m[id] = pos` on a Go `map[string]int`. -/
def mapSet : List (String × ℕ) → String → ℕ → List (String × ℕ)
  | [], id, pos => [(id, pos)]
  | p :: m, id, pos => if p.1 = id then (id, pos) :: m else p :: mapSet m id pos

/- The record built by `AddItem`: normalized vector, its quantization, the
   caller's metadata and namespace. -/
noncomputable def mkRecord (id : String) (vector : Vec)
    (meta : List (String × String)) (ns : String) : Record :=
  let norm := Normalize vector
  ⟨id, norm, Quantize norm, meta, ns⟩

/- `AddItem`: replace in place when the id is mapped, otherwise register the
   new position and append. -/
noncomputable def AddItem (vs : VectorStore) (id : String) (vector : Vec)
    (meta : List (String × String)) (ns : String) : VectorStore :=
  match mapLookup vs.idMap id with
  | some idx => { vs with records := vs.records.set idx (mkRecord id vector meta ns) }
  | none => { records := vs.records ++ [mkRecord id vector meta ns],
              idMap := mapSet vs.idMap id vs.records.length }

/- The search result built for a surviving record. -/
noncomputable def mkResult (q : Vec) (rec : Record) : SearchResult :=
  ⟨rec.id, DotProduct q rec.vector⟩

/- The bounded top-K insertion used identically per shard and at the merge:
   push while the heap holds fewer than `k` entries, otherwise compare with
   the root `(*h)[0]` and pop-then-push when the new score is larger.  Reading
   the root of an empty heap is an index-out-of-range panic, hence `none`. -/
noncomputable def heapInsert (k : ℤ) (h : Heap) (res : SearchResult) : Option Heap :=
  if (h.length : ℤ) < k then some (hpush res h)
  else
    match h with
    | [] => none
    | m :: rest => if m.score < res.score then some (hpush res rest) else some h

/- One iteration of a shard worker's loop: the namespace filter, the metadata
   filter, then the bounded heap insertion of the scored record. -/
noncomputable def considerRecord (q : Vec) (k : ℤ) (ns fk fv : String)
    (h : Heap) (rec : Record) : Option Heap :=
  if ns ≠ "" ∧ rec.nspace ≠ ns then some h
  else if fk ≠ "" ∧ metaLookup rec.metadata fk ≠ fv then some h
  else heapInsert k h (mkResult q rec)

/- A whole shard worker: fold its slice into a heap starting from the empty
   heap, then emit the heap contents in descending score order (the worker
   fills its output back to front by popping ascending minima). -/
noncomputable def scanShard (q : Vec) (k : ℤ) (ns fk fv : String)
    (recs : List Record) : Option (List SearchResult) :=
  (recs.foldlM (considerRecord q k ns fk fv) ([] : Heap)).map List.reverse

/- The shard ranges: `start := i * chunkSize`, skipping (Go `break`s, but the
   start offsets are monotone, so a filter is equivalent) every range whose
   start reaches the record count, and clipping `end` to the record count. -/
def shardRanges (len chunk nw : ℕ) : List (ℕ × ℕ) :=
  (List.range nw).filterMap (fun i =>
    if i * chunk < len then some (i * chunk, min (i * chunk + chunk) len) else none)

/- `Search`: normalize the query, split the records into chunks of size
   `⌈len/numWorkers⌉`, run the bounded top-K scan on every chunk, merge all
   chunk results through the same bounded top-K insertion starting from the
   empty heap, and return the final heap in descending score order. -/
noncomputable def Search (vs : VectorStore) (query : Vec) (k : ℤ)
    (ns fk fv : String) (numWorkers : ℕ) : Option (List SearchResult) :=
  let q := Normalize query
  let chunkSize := (vs.records.length + numWorkers - 1) / numWorkers
  (shardRanges vs.records.length chunkSize numWorkers).mapM
      (fun r => scanShard q k ns fk fv ((vs.records.drop r.1).take (r.2 - r.1))) >>=
    fun chunks =>
      chunks.foldlM (fun h chunk => chunk.foldlM (heapInsert k) h) ([] : Heap) >>=
        fun final => some final.reverse

/- `Save` under the JSON codec contract: `json.Marshal(vs.Records)` emits a
   faithful serialization of the record sequence, which `json.Unmarshal`
   decodes back to the same records; the serialized form is therefore modelled
   by the record sequence itself. -/
def Save (vs : VectorStore) : List Record := vs.records

/- Outcome of the two fallible library calls inside `Load`, following the
   documented behavior of `os.ReadFile` and `encoding/json.Unmarshal`:
   `readErr` - `os.ReadFile` fails, the store is untouched;
   `invalidData` - the data is not syntactically valid JSON, `Unmarshal`
   rejects it during its validity pre-check without touching the target;
   `typeErr rs` - the data is valid JSON that fails typed decoding
   (e.g. `[5]`): `Unmarshal` decodes as best it can, overwriting the target
   slice with the partially decoded records `rs`, and returns an error;
   `decoded rs` - decoding succeeds with records `rs`. -/
inductive LoadOutcome where
  | readErr : LoadOutcome
  | invalidData : LoadOutcome
  | typeErr : List Record → LoadOutcome
  | decoded : List Record → LoadOutcome

/- The id-map rebuild loop of `Load`: `for i, rec := range vs.Records
   { vs.IDMap[rec.ID] = i }`. -/
def rebuildAux : List (String × ℕ) → ℕ → List Record → List (String × ℕ)
  | m, _, [] => m
  | m, i, r :: rs => rebuildAux (mapSet m r.id i) (i + 1) rs

def rebuildMap (rs : List Record) : List (String × ℕ) := rebuildAux [] 0 rs

/- `Load`: on a read error or invalid JSON return the error leaving the store
   untouched; on a typed-decode error the record slice has already been
   overwritten and the function returns before rebuilding the id map; on
   success install the records and rebuild the id map from scratch.  The
   `Bool` is `true` when an error is returned. -/
def Load (vs : VectorStore) (r : LoadOutcome) : VectorStore × Bool :=
  match r with
  | .readErr => (vs, true)
  | .invalidData => (vs, true)
  | .typeErr rs => ({ vs with records := rs }, true)
  | .decoded rs => ({ records := rs, idMap := rebuildMap rs }, false)

/- The ids of the stored records, in position order. -/
def storeIds (vs : VectorStore) : List String := vs.records.map Record.id

/- The id-map invariant of the store: every map entry points to a valid
   position holding a record with that id, and every position's record id
   looks up back to that position. -/
def StoreInv (vs : VectorStore) : Prop :=
  (∀ p ∈ vs.idMap, p.2 < vs.records.length ∧ (storeIds vs).getD p.2 "" = p.1) ∧
  (∀ i < vs.records.length, mapLookup vs.idMap ((storeIds vs).getD i "") = some i)

/- Pairs `(id, position)` produced by scanning records from position `i`;
   proof artifact used to characterize `rebuildMap`. -/
def idPairsFrom : ℕ → List Record → List (String × ℕ)
  | _, [] => []
  | i, r :: rs => (r.id, i) :: idPairsFrom (i + 1) rs

/- Concrete store with a single record of id `"a"`; used as a test input. -/
noncomputable def recA : Record := ⟨"a", [], [], [], ""⟩

/- A second record with the same id `"a"` and a different namespace. -/
noncomputable def recA2 : Record := ⟨"a", [], [], [], "x"⟩

/- The Go zero `Record`, as left by a failed typed decode of `[5]`. -/
noncomputable def zeroRec : Record := ⟨"", [], [], [], ""⟩

/- A one-record store satisfying the invariant. -/
noncomputable def st1 : VectorStore := ⟨[recA], [("a", 0)]⟩

/- Helper: the summand of the reference dot product at index `t`. -/
theorem dotTailFrom_eq_sum (a b : Vec) :
    ∀ d i, a.length - i ≤ d →
      dotTailFrom a b i = ∑ t in Finset.Ico i a.length, a.getD t 0 * b.getD t 0 := by
  intro d
  induction d with
  | zero =>
    intro i hi
    rw [dotTailFrom, dif_neg (by omega), Finset.Ico_eq_empty (by omega), Finset.sum_empty]
  | succ d ih =>
    intro i hi
    by_cases hlt : i < a.length
    · rw [dotTailFrom, dif_pos hlt, ih (i + 1) (by omega),
        Finset.sum_eq_sum_Ico_succ_bot hlt]
    · rw [dotTailFrom, dif_neg hlt, Finset.Ico_eq_empty (by omega), Finset.sum_empty]

theorem dotUnrolledFrom_eq_sum (a b : Vec) :
    ∀ d i, a.length - i ≤ d → 4 ∣ i → i ≤ a.length / 4 * 4 →
      dotUnrolledFrom a b i
        = ∑ t in Finset.Ico i (a.length / 4 * 4), a.getD t 0 * b.getD t 0 := by
  intro d
  induction d with
  | zero =>
    intro i hi hdvd hub
    have hie : i = a.length / 4 * 4 := by omega
    rw [dotUnrolledFrom, dif_neg (by omega), hie, Finset.Ico_self, Finset.sum_empty]
  | succ d ih =>
    intro i hi hdvd hub
    by_cases hcond : i + 3 < a.length
    · have h4 : i + 4 ≤ a.length / 4 * 4 := by omega
      rw [dotUnrolledFrom, dif_pos hcond, ih (i + 4) (by omega) (by omega) h4]
      rw [← Finset.sum_Ico_consecutive (fun t => a.getD t 0 * b.getD t 0)
        (show i ≤ i + 4 by omega) h4]
      have hgrp : ∑ t in Finset.Ico i (i + 4), a.getD t 0 * b.getD t 0
          = a.getD i 0 * b.getD i 0 + a.getD (i+1) 0 * b.getD (i+1) 0 +
            a.getD (i+2) 0 * b.getD (i+2) 0 + a.getD (i+3) 0 * b.getD (i+3) 0 := by
        rw [Finset.sum_Ico_eq_sum_range]
        have : i + 4 - i = 4 := by omega
        rw [this]
        simp [Finset.sum_range_succ]
      rw [hgrp]
    · have hie : i = a.length / 4 * 4 := by omega
      rw [dotUnrolledFrom, dif_neg hcond, hie, Finset.Ico_self, Finset.sum_empty]

theorem dotProduct_eq_sum (a b : Vec) :
    DotProduct a b = ∑ t in Finset.range a.length, a.getD t 0 * b.getD t 0 := by
  rw [DotProduct,
    dotUnrolledFrom_eq_sum a b a.length 0 (by omega) (dvd_zero 4) (by omega),
    dotTailFrom_eq_sum a b a.length (a.length / 4 * 4) (by omega),
    Finset.sum_Ico_consecutive (fun t => a.getD t 0 * b.getD t 0)
      (Nat.zero_le _) (by omega), Finset.range_eq_Ico]

theorem dotRef_eq_sum (a : Vec) :
    ∀ b : Vec, a.length = b.length →
      dotRef a b = ∑ t in Finset.range a.length, a.getD t 0 * b.getD t 0 := by
  induction a with
  | nil => intro b h; simp [dotRef]
  | cons x xs ih =>
    intro b h
    cases b with
    | nil => simp at h
    | cons y ys =>
      have hxy : dotRef (x :: xs) (y :: ys) = x * y + dotRef xs ys := by
        simp [dotRef]
      rw [hxy, List.length_cons, Finset.sum_range_succ']
      simp only [List.getD_cons_succ, List.getD_cons_zero]
      rw [ih ys (by simpa using h)]
      ring

/-- Claim C9: for equal-length vectors, the unrolled four-at-a-time loop of
`DotProduct` followed by its scalar remainder loop computes exactly the plain
element-by-element reference summation `dotRef`, covering every index once. -/
theorem dotProduct_eq_dotRef (a b : Vec) (h : a.length = b.length) :
    DotProduct a b = dotRef a b := by
  rw [dotProduct_eq_sum, dotRef_eq_sum a b h]

/-- Witness for C9 at concrete five-element vectors. -/
theorem dotProduct_eq_dotRef_witness :
    ([(1:ℝ), 2, 3, 4, 5] : Vec).length = ([(6:ℝ), 7, 8, 9, 10] : Vec).length ∧
      DotProduct [(1:ℝ), 2, 3, 4, 5] [(6:ℝ), 7, 8, 9, 10]
        = dotRef [(1:ℝ), 2, 3, 4, 5] [(6:ℝ), 7, 8, 9, 10] :=
  ⟨rfl, dotProduct_eq_dotRef [(1:ℝ), 2, 3, 4, 5] [(6:ℝ), 7, 8, 9, 10] rfl⟩

/-- Claim C8: `Normalize` returns its input unchanged when the magnitude is
exactly zero, and otherwise returns a vector of the same length whose every
component is the corresponding input component divided by the magnitude. -/
theorem normalize_spec (v : Vec) :
    (magnitude v = 0 → Normalize v = v) ∧
    (magnitude v ≠ 0 → (Normalize v).length = v.length ∧
      ∀ i < v.length, (Normalize v).getD i 0 = v.getD i 0 / magnitude v) := by
  constructor
  · intro h; rw [Normalize, if_pos h]
  · intro h
    rw [Normalize, if_neg h]
    refine ⟨List.length_map _ _, ?_⟩
    intro i hi
    rw [List.getD_eq_getElem?_getD, List.getD_eq_getElem?_getD,
      List.getElem?_map]
    rw [List.getElem?_eq_getElem hi]
    simp

/-- Witness for C8: the zero branch at `[0]` and the division branch at `[3, 4]`. -/
theorem normalize_spec_witness :
    (magnitude [(0:ℝ)] = 0 ∧ Normalize [(0:ℝ)] = [(0:ℝ)]) ∧
    (magnitude [(3:ℝ), 4] ≠ 0 ∧ (Normalize [(3:ℝ), 4]).length = ([(3:ℝ), 4] : Vec).length ∧
      ∀ i < ([(3:ℝ), 4] : Vec).length,
        (Normalize [(3:ℝ), 4]).getD i 0 = ([(3:ℝ), 4] : Vec).getD i 0 / magnitude [(3:ℝ), 4]) := by
  have h0 : magnitude [(0:ℝ)] = 0 := by
    have : sumSquares [(0:ℝ)] = 0 := by simp [sumSquares]
    rw [magnitude, this, Real.sqrt_zero]
  have h34 : magnitude [(3:ℝ), 4] = 5 := by
    have hs : sumSquares [(3:ℝ), 4] = 25 := by
      simp [sumSquares]; norm_num
    rw [magnitude, hs, show (25:ℝ) = 5 ^ 2 by norm_num,
      Real.sqrt_sq (by norm_num : (0:ℝ) ≤ 5)]
  have h34ne : magnitude [(3:ℝ), 4] ≠ 0 := by rw [h34]; norm_num
  exact ⟨⟨h0, (normalize_spec [(0:ℝ)]).1 h0⟩,
    ⟨h34ne, (normalize_spec [(3:ℝ), 4]).2 h34ne⟩⟩

/-- Counterexample to claim C6: at component `2`, `Quantize` wraps the
truncation `254` of `2 * 127` to `-2`; it neither clamps to `127` nor keeps
the out-of-range truncation `254`. -/
theorem quantize_no_clamp_counterexample :
    Quantize [(2:ℝ)] = [-2] ∧ ((-2:ℤ) ≠ 127) ∧ ((-2:ℤ) ≠ 254) := by
  refine ⟨?_, by decide, by decide⟩
  have ht : truncF32 ((2:ℝ) * 127) = 254 := by
    rw [truncF32, if_pos (by norm_num : (0:ℝ) ≤ 2 * 127),
      show (2:ℝ) * 127 = ((254:ℤ):ℝ) by norm_num, Int.floor_intCast]
  have hw : int8wrap 254 = -2 := by decide
  simp [Quantize, ht, hw]

/-- Claim C6 (amended): `Quantize` maps each component `x` to the `int8`
obtained by truncating `x * 127` toward zero and wrapping modulo 256 into
`[-128, 127]`; for components with `|x| ≤ 1` (every component of a normalized
vector) the truncation already lies in `[-127, 127]`, so no wrapping occurs
and the result is exactly the truncation.  Components beyond the boundary are
wrapped, not clamped. -/
theorem quantize_truncates_in_range (v : Vec) (i : ℕ) (hi : i < v.length)
    (hx : |v.getD i 0| ≤ 1) :
    (Quantize v).getD i 0 = truncF32 (v.getD i 0 * 127) ∧
    -127 ≤ truncF32 (v.getD i 0 * 127) ∧ truncF32 (v.getD i 0 * 127) ≤ 127 := by
  have hxb := abs_le.mp hx
  have hub : v.getD i 0 * 127 ≤ 127 := by nlinarith [hxb.1, hxb.2]
  have hlb : -127 ≤ v.getD i 0 * 127 := by nlinarith [hxb.1, hxb.2]
  have htb : -127 ≤ truncF32 (v.getD i 0 * 127) ∧ truncF32 (v.getD i 0 * 127) ≤ 127 := by
    rw [truncF32]
    by_cases hpos : 0 ≤ v.getD i 0 * 127
    · rw [if_pos hpos]
      constructor
      · exact le_trans (by norm_num) (Int.floor_nonneg.mpr hpos)
      · calc ⌊v.getD i 0 * 127⌋ ≤ ⌊((127:ℤ):ℝ)⌋ :=
              Int.floor_le_floor (by exact_mod_cast hub)
          _ = 127 := Int.floor_intCast 127
    · rw [if_neg hpos]
      constructor
      · calc (-127 : ℤ) = ⌈((-127:ℤ):ℝ)⌉ := (Int.ceil_intCast _).symm
          _ ≤ ⌈v.getD i 0 * 127⌉ := Int.ceil_le_ceil (by exact_mod_cast hlb)
      · exact Int.ceil_le.mpr (by exact_mod_cast hub)
  refine ⟨?_, htb⟩
  have hq : (Quantize v).getD i 0 = int8wrap (truncF32 (v.getD i 0 * 127)) := by
    rw [Quantize, List.getD_eq_getElem?_getD, List.getElem?_map,
      List.getElem?_eq_getElem hi]
    simp [List.getD_eq_getElem?_getD, List.getElem?_eq_getElem hi]
  rw [hq, int8wrap]
  omega

/-- Witness for the amended C6 at the in-range component `1`. -/
theorem quantize_truncates_in_range_witness :
    (0 < ([(1:ℝ)] : Vec).length) ∧ |([(1:ℝ)] : Vec).getD 0 0| ≤ 1 ∧
      ((Quantize [(1:ℝ)]).getD 0 0 = truncF32 (([(1:ℝ)] : Vec).getD 0 0 * 127) ∧
       -127 ≤ truncF32 (([(1:ℝ)] : Vec).getD 0 0 * 127) ∧
       truncF32 (([(1:ℝ)] : Vec).getD 0 0 * 127) ≤ 127) :=
  ⟨by norm_num, by norm_num,
    quantize_truncates_in_range [(1:ℝ)] 0 (by norm_num) (by norm_num)⟩

theorem mapLookup_mem {m : List (String × ℕ)} {id : String} {pos : ℕ}
    (h : mapLookup m id = some pos) : (id, pos) ∈ m := by
  induction m with
  | nil => simp [mapLookup] at h
  | cons p m ih =>
    rw [mapLookup] at h
    by_cases hp : p.1 = id
    · rw [if_pos hp] at h
      have hpos : p.2 = pos := by injection h
      have : p = (id, pos) := by cases p; simp_all
      rw [← this]; exact List.mem_cons_self _ _
    · rw [if_neg hp] at h
      exact List.mem_cons_of_mem _ (ih h)

theorem mapSet_fresh {m : List (String × ℕ)} {id : String} (pos : ℕ)
    (h : mapLookup m id = none) : mapSet m id pos = m ++ [(id, pos)] := by
  induction m with
  | nil => rfl
  | cons p m ih =>
    rw [mapLookup] at h
    by_cases hp : p.1 = id
    · rw [if_pos hp] at h; cases h
    · rw [if_neg hp] at h
      rw [mapSet, if_neg hp, ih h, List.cons_append]

theorem mapLookup_append_left {m m2 : List (String × ℕ)} {id : String} {pos : ℕ}
    (h : mapLookup m id = some pos) : mapLookup (m ++ m2) id = some pos := by
  induction m with
  | nil => simp [mapLookup] at h
  | cons p m ih =>
    rw [mapLookup] at h
    rw [List.cons_append, mapLookup]
    by_cases hp : p.1 = id
    · rwa [if_pos hp] at h ⊢
    · rw [if_neg hp] at h ⊢
      exact ih h

theorem mapLookup_append_right {m m2 : List (String × ℕ)} {id : String}
    (h : mapLookup m id = none) : mapLookup (m ++ m2) id = mapLookup m2 id := by
  induction m with
  | nil => rfl
  | cons p m ih =>
    rw [mapLookup] at h
    rw [List.cons_append, mapLookup]
    by_cases hp : p.1 = id
    · rw [if_pos hp] at h; cases h
    · rw [if_neg hp] at h ⊢
      exact ih h

theorem storeInv_congr {vs vs' : VectorStore} (hm : vs'.idMap = vs.idMap)
    (hi : storeIds vs' = storeIds vs) (hInv : StoreInv vs) : StoreInv vs' := by
  have hlen : vs'.records.length = vs.records.length := by
    have h := congrArg List.length hi
    simpa [storeIds] using h
  rw [StoreInv, hm, hi, hlen]
  exact hInv

theorem getD_append_left {l l2 : List String} {n : ℕ} (h : n < l.length) :
    (l ++ l2).getD n "" = l.getD n "" := by
  rw [List.getD_eq_getElem?_getD, List.getD_eq_getElem?_getD, List.getElem?_append,
    if_pos h]

theorem getD_append_length {l : List String} {a : String} :
    (l ++ [a]).getD l.length "" = a := by
  rw [List.getD_eq_getElem?_getD, List.getElem?_concat_length]
  rfl

/-- Claim C4: on an id already present, `AddItem` replaces the record at its
existing position, leaving the id map, the store size and every other
position unchanged; on a fresh id it appends the built record at the end and
maps the id to the new position. -/
theorem addItem_upsert (vs : VectorStore) (id : String) (v : Vec)
    (meta : List (String × String)) (ns : String) (hInv : StoreInv vs) :
    (∀ idx, mapLookup vs.idMap id = some idx →
      (AddItem vs id v meta ns).idMap = vs.idMap ∧
      (AddItem vs id v meta ns).records.length = vs.records.length ∧
      (AddItem vs id v meta ns).records[idx]? = some (mkRecord id v meta ns) ∧
      ∀ j, j ≠ idx → (AddItem vs id v meta ns).records[j]? = vs.records[j]?) ∧
    (mapLookup vs.idMap id = none →
      (AddItem vs id v meta ns).records = vs.records ++ [mkRecord id v meta ns] ∧
      (AddItem vs id v meta ns).idMap = mapSet vs.idMap id vs.records.length ∧
      mapLookup (AddItem vs id v meta ns).idMap id = some vs.records.length ∧
      (AddItem vs id v meta ns).records[vs.records.length]? = some (mkRecord id v meta ns)) := by
  constructor
  · intro idx hidx
    have hmem := mapLookup_mem hidx
    have hlt : idx < vs.records.length := (hInv.1 (id, idx) hmem).1
    rw [AddItem, hidx]
    refine ⟨rfl, List.length_set _ _ _, ?_, ?_⟩
    · exact List.getElem?_set_eq hlt
    · intro j hj
      exact List.getElem?_set_ne (fun h => hj h.symm)
  · intro hidx
    rw [AddItem, hidx]
    refine ⟨rfl, rfl, ?_, List.getElem?_concat_length _ _⟩
    show mapLookup (mapSet vs.idMap id vs.records.length) id = some vs.records.length
    rw [mapSet_fresh _ hidx, mapLookup_append_right hidx, mapLookup, if_pos rfl]

/-- Witness for C4: the replace branch on the one-record store `st1`. -/
theorem addItem_upsert_witness :
    StoreInv st1 ∧ mapLookup st1.idMap "a" = some 0 ∧
      ((AddItem st1 "a" [] [] "").idMap = st1.idMap ∧
       (AddItem st1 "a" [] [] "").records.length = st1.records.length ∧
       (AddItem st1 "a" [] [] "").records[0]? = some (mkRecord "a" [] [] "") ∧
       ∀ j, j ≠ 0 → (AddItem st1 "a" [] [] "").records[j]? = st1.records[j]?) := by
  have hInv : StoreInv st1 := by
    constructor
    · intro p hp
      simp only [st1, List.mem_singleton] at hp
      subst hp
      exact ⟨by simp [st1], by simp [st1, storeIds, recA]⟩
    · intro i hi
      simp only [st1, List.length_singleton] at hi
      interval_cases i
      simp [st1, storeIds, recA, mapLookup]
  have hl : mapLookup st1.idMap "a" = some 0 := by
    simp [st1, mapLookup]
  exact ⟨hInv, hl, (addItem_upsert st1 "a" [] [] "" hInv).1 0 hl⟩

theorem idPairsFrom_lookup (rs : List Record) :
    ∀ i j, (rs.map Record.id).Nodup → j < rs.length →
      mapLookup (idPairsFrom i rs) ((rs.map Record.id).getD j "") = some (i + j) := by
  induction rs with
  | nil => intro i j _ hj; simp at hj
  | cons r rs ih =>
    intro i j hnd hj
    rw [List.map_cons] at hnd
    have hnd' := List.nodup_cons.mp hnd
    cases j with
    | zero =>
      rw [List.map_cons, List.getD_cons_zero, idPairsFrom, mapLookup, if_pos rfl]
      rfl
    | succ j =>
      have hj' : j < rs.length := by simpa using Nat.lt_of_succ_lt_succ hj
      have hmem : (rs.map Record.id).getD j "" ∈ rs.map Record.id := by
        have hjl : j < (rs.map Record.id).length := by simpa using hj'
        rw [List.getD_eq_getElem?_getD, List.getElem?_eq_getElem hjl]
        exact List.getElem?_mem (List.getElem?_eq_getElem hjl)
      have hne : r.id ≠ (rs.map Record.id).getD j "" := by
        intro h
        exact hnd'.1 (h ▸ hmem)
      simp only [List.map_cons, List.getD_cons_succ, idPairsFrom, mapLookup, if_neg hne]
      rw [ih (i + 1) j hnd'.2 hj']
      congr 1
      omega

theorem idPairsFrom_mem (rs : List Record) :
    ∀ i p, p ∈ idPairsFrom i rs →
      ∃ j, j < rs.length ∧ p = ((rs.map Record.id).getD j "", i + j) := by
  induction rs with
  | nil => intro i p hp; simp [idPairsFrom] at hp
  | cons r rs ih =>
    intro i p hp
    rw [idPairsFrom, List.mem_cons] at hp
    rcases hp with hp | hp
    · exact ⟨0, by simp, by simpa using hp⟩
    · obtain ⟨j, hj, hpe⟩ := ih (i + 1) p hp
      refine ⟨j + 1, by simpa using Nat.succ_lt_succ hj, ?_⟩
      rw [List.map_cons, List.getD_cons_succ, show i + (j + 1) = i + 1 + j by omega]
      exact hpe

theorem rebuildAux_eq (rs : List Record) :
    ∀ m i, (∀ r ∈ rs, mapLookup m r.id = none) → (rs.map Record.id).Nodup →
      rebuildAux m i rs = m ++ idPairsFrom i rs := by
  induction rs with
  | nil => intro m i _ _; simp [rebuildAux, idPairsFrom]
  | cons r rs ih =>
    intro m i hfresh hnd
    rw [List.map_cons] at hnd
    have hnd' := List.nodup_cons.mp hnd
    rw [rebuildAux, mapSet_fresh i (hfresh r (List.mem_cons_self _ _))]
    rw [ih (m ++ [(r.id, i)]) (i + 1) ?_ hnd'.2]
    · rw [idPairsFrom, List.append_assoc, List.singleton_append]
    · intro r' hr'
      rw [mapLookup_append_right (hfresh r' (List.mem_cons_of_mem _ hr'))]
      have hne : r.id ≠ r'.id := by
        intro h
        exact hnd'.1 (h ▸ List.mem_map_of_mem Record.id hr')
      rw [mapLookup, if_neg hne]
      rfl

theorem rebuild_inv (rs : List Record) (hnd : (rs.map Record.id).Nodup) :
    StoreInv ⟨rs, rebuildMap rs⟩ := by
  have hre : rebuildMap rs = idPairsFrom 0 rs := by
    rw [rebuildMap, rebuildAux_eq rs [] 0 (fun _ _ => rfl) hnd, List.nil_append]
  constructor
  · intro p hp
    rw [hre] at hp
    obtain ⟨j, hj, hpe⟩ := idPairsFrom_mem rs 0 p hp
    subst hpe
    exact ⟨by simpa using hj, by simp [storeIds]⟩
  · intro i hi
    show mapLookup (rebuildMap rs) ((rs.map Record.id).getD i "") = some i
    rw [hre]
    have := idPairsFrom_lookup rs 0 i hnd (by simpa using hi)
    simpa using this

/-- Claim C5 (amended): the id-map invariant holds after creation, after every
`AddItem` on a store satisfying it, and after every successful `Load` whose
decoded records carry pairwise-distinct ids.  (A successful `Load` of data
with duplicate ids, or a failed typed decode, violates the invariant - see
the counterexample.) -/
theorem store_invariant_maintained :
    StoreInv NewVectorStore ∧
    (∀ vs id v meta ns, StoreInv vs → StoreInv (AddItem vs id v meta ns)) ∧
    (∀ target rs, (rs.map Record.id).Nodup →
      StoreInv (Load target (LoadOutcome.decoded rs)).1) := by
  refine ⟨?_, ?_, ?_⟩
  · constructor
    · intro p hp; simp [NewVectorStore] at hp
    · intro i hi; simp [NewVectorStore] at hi
  · intro vs id v meta ns hInv
    cases hcase : mapLookup vs.idMap id with
    | some idx =>
      have hmem := mapLookup_mem hcase
      have hlt : idx < vs.records.length := (hInv.1 (id, idx) hmem).1
      have hid : (storeIds vs).getD idx "" = id := (hInv.1 (id, idx) hmem).2
      refine storeInv_congr ?_ ?_ hInv
      · rw [AddItem, hcase]
      · rw [AddItem, hcase]
        show (vs.records.set idx (mkRecord id v meta ns)).map Record.id = storeIds vs
        rw [List.map_set]
        have hmk : (mkRecord id v meta ns).id = id := rfl
        rw [hmk]
        apply List.ext_getElem?
        intro n
        by_cases hn : idx = n
        · subst hn
          have hlen : idx < (storeIds vs).length := by simpa [storeIds] using hlt
          have hget : (storeIds vs)[idx] = id := by
            rw [List.getD_eq_getElem?_getD, List.getElem?_eq_getElem hlen] at hid
            simpa using hid
          rw [List.getElem?_set_eq (by simpa using hlt),
            List.getElem?_eq_getElem hlen, hget]
        · exact List.getElem?_set_ne hn
    | none =>
      constructor
      · intro p hp
        rw [AddItem, hcase] at hp
        simp only at hp
        rw [mapSet_fresh _ hcase, List.mem_append] at hp
        rcases hp with hp | hp
        · have h1 := (hInv.1 p hp).1
          have h2 := (hInv.1 p hp).2
          constructor
          · rw [AddItem, hcase]
            simp only [List.length_append, List.length_singleton]
            omega
          · rw [AddItem, hcase]
            show ((vs.records ++ [mkRecord id v meta ns]).map Record.id).getD p.2 "" = p.1
            rw [List.map_append]
            rw [getD_append_left (by simpa [storeIds] using h1)]
            exact h2
        · rw [List.mem_singleton] at hp
          subst hp
          constructor
          · rw [AddItem, hcase]
            simp [List.length_append]
          · rw [AddItem, hcase]
            show ((vs.records ++ [mkRecord id v meta ns]).map Record.id).getD vs.records.length "" = id
            rw [List.map_append]
            simp only [List.map_cons, List.map_nil]
            have : vs.records.length = (vs.records.map Record.id).length := by simp
            rw [this, getD_append_length]
            rfl
      · intro i hi
        rw [AddItem, hcase] at hi ⊢
        simp only [List.length_append, List.length_singleton] at hi
        show mapLookup (mapSet vs.idMap id vs.records.length)
          (((vs.records ++ [mkRecord id v meta ns]).map Record.id).getD i "") = some i
        rw [mapSet_fresh _ hcase, List.map_append]
        simp only [List.map_cons, List.map_nil]
        by_cases hin : i < vs.records.length
        · rw [getD_append_left (by simpa using hin)]
          exact mapLookup_append_left (hInv.2 i hin)
        · have hie : i = vs.records.length := by omega
          subst hie
          have hgd : (List.map Record.id vs.records ++ [(mkRecord id v meta ns).id]).getD
              vs.records.length "" = (mkRecord id v meta ns).id := by
            have hl : vs.records.length = (vs.records.map Record.id).length := by simp
            rw [hl, getD_append_length]
          rw [hgd]
          show mapLookup (vs.idMap ++ [(id, vs.records.length)]) id = some vs.records.length
          rw [mapLookup_append_right hcase, mapLookup, if_pos rfl]
  · intro target rs hnd
    show StoreInv ⟨rs, rebuildMap rs⟩
    exact rebuild_inv rs hnd

/-- Witness for the amended C5: the empty store, one `AddItem` on it, and a
successful two-record `Load` with distinct ids. -/
theorem store_invariant_maintained_witness :
    StoreInv NewVectorStore ∧
    StoreInv (AddItem NewVectorStore "a" [] [] "") ∧
    StoreInv (Load NewVectorStore (LoadOutcome.decoded [recA, ⟨"b", [], [], [], ""⟩])).1 := by
  refine ⟨store_invariant_maintained.1, ?_, ?_⟩
  · exact store_invariant_maintained.2.1 NewVectorStore "a" [] [] ""
      store_invariant_maintained.1
  · refine store_invariant_maintained.2.2 NewVectorStore _ ?_
    simp [recA]

/-- Counterexample to claim C5: a successful `Load` of two records sharing the
id `"a"` yields a store whose map sends `"a"` to position 1, so position 0's
record id does not map back to position 0 - the mapping is not a bijection
onto the valid positions. -/
theorem load_duplicate_ids_counterexample :
    (Load NewVectorStore (LoadOutcome.decoded [recA, recA2])).2 = false ∧
    ¬ StoreInv (Load NewVectorStore (LoadOutcome.decoded [recA, recA2])).1 := by
  refine ⟨rfl, ?_⟩
  intro h
  have h0 := h.2 0 (by simp [Load])
  rw [show (Load NewVectorStore (LoadOutcome.decoded [recA, recA2])).1
      = ⟨[recA, recA2], rebuildMap [recA, recA2]⟩ from rfl] at h0
  rw [show rebuildMap [recA, recA2] = [("a", 1)] from rfl] at h0
  rw [show (storeIds ⟨[recA, recA2], [("a", 1)]⟩).getD 0 "" = "a" from rfl] at h0
  rw [show mapLookup [("a", 1)] "a" = some 1 from by rw [mapLookup, if_pos rfl]] at h0
  cases h0

theorem nodup_ids_of_inv {vs : VectorStore} (h : StoreInv vs) : (storeIds vs).Nodup := by
  rw [List.nodup_iff_injective_get]
  intro i j heq
  have hi : (i : ℕ) < vs.records.length := by
    have := i.2; simpa [storeIds] using this
  have hj : (j : ℕ) < vs.records.length := by
    have := j.2; simpa [storeIds] using this
  have hgi : (storeIds vs).getD (i : ℕ) "" = (storeIds vs).get i := by
    rw [List.getD_eq_getElem?_getD, List.getElem?_eq_getElem i.2, List.get_eq_getElem]
    rfl
  have hgj : (storeIds vs).getD (j : ℕ) "" = (storeIds vs).get j := by
    rw [List.getD_eq_getElem?_getD, List.getElem?_eq_getElem j.2, List.get_eq_getElem]
    rfl
  have h1 := h.2 (i : ℕ) hi
  have h2 := h.2 (j : ℕ) hj
  rw [hgi, heq, ← hgj] at h1
  rw [h1] at h2
  exact Fin.ext (by injection h2)

/-- Claim C7: for every store satisfying the id-map invariant (every store
state reachable through the store's own operations), `Load` of the data
written by `Save` succeeds, reproduces the identical record sequence (hence
the identical set of (id, vector, metadata, namespace) tuples), and rebuilds
an id map that is again a correct bijection onto the loaded sequence. -/
theorem save_load_roundtrip (vs target : VectorStore) (hInv : StoreInv vs) :
    (Load target (LoadOutcome.decoded (Save vs))).2 = false ∧
    (Load target (LoadOutcome.decoded (Save vs))).1.records = vs.records ∧
    StoreInv (Load target (LoadOutcome.decoded (Save vs))).1 := by
  refine ⟨rfl, rfl, ?_⟩
  show StoreInv ⟨vs.records, rebuildMap vs.records⟩
  exact rebuild_inv vs.records (by simpa [storeIds] using nodup_ids_of_inv hInv)

/-- Witness for C7 on the one-record store `st1`. -/
theorem save_load_roundtrip_witness :
    StoreInv st1 ∧
    ((Load NewVectorStore (LoadOutcome.decoded (Save st1))).2 = false ∧
     (Load NewVectorStore (LoadOutcome.decoded (Save st1))).1.records = st1.records ∧
     StoreInv (Load NewVectorStore (LoadOutcome.decoded (Save st1))).1) := by
  have hInv : StoreInv st1 := by
    constructor
    · intro p hp
      simp only [st1, List.mem_singleton] at hp
      subst hp
      exact ⟨by simp [st1], by simp [st1, storeIds, recA]⟩
    · intro i hi
      simp only [st1, List.length_singleton] at hi
      interval_cases i
      simp [st1, storeIds, recA, mapLookup]
  exact ⟨hInv, save_load_roundtrip st1 NewVectorStore hInv⟩

/-- Claim C10 (amended): `Load` leaves the store unchanged when the file read
fails or the data is not syntactically valid JSON; but when syntactically
valid data fails typed decoding, the record sequence is overwritten with the
partially decoded records while the id map keeps its previous value, so a
failed `Load` is not atomic in general. -/
theorem load_failure_behavior (vs : VectorStore) (rs : List Record) :
    Load vs LoadOutcome.readErr = (vs, true) ∧
    Load vs LoadOutcome.invalidData = (vs, true) ∧
    (Load vs (LoadOutcome.typeErr rs)).2 = true ∧
    (Load vs (LoadOutcome.typeErr rs)).1.records = rs ∧
    (Load vs (LoadOutcome.typeErr rs)).1.idMap = vs.idMap :=
  ⟨rfl, rfl, rfl, rfl, rfl⟩

/-- Counterexample to claim C10: a typed-decode failure (Go: `Unmarshal` of
valid JSON such as `[5]` into `[]Record`) overwrites the records of `st1`
with the partially decoded zero record while still returning an error, so the
store is changed by a failing `Load`. -/
theorem load_type_error_not_atomic :
    (Load st1 (LoadOutcome.typeErr [zeroRec])).2 = true ∧
    (Load st1 (LoadOutcome.typeErr [zeroRec])).1.records ≠ st1.records := by
  refine ⟨rfl, ?_⟩
  intro h
  have hmap := congrArg (List.map Record.id) h
  rw [show (Load st1 (LoadOutcome.typeErr [zeroRec])).1.records.map Record.id
      = [""] from rfl] at hmap
  rw [show st1.records.map Record.id = ["a"] from rfl] at hmap
  have : ("" : String) = "a" := by injection hmap
  exact absurd this (by decide)

theorem hpush_length (res : SearchResult) (h : Heap) :
    (hpush res h).length = h.length + 1 := by
  induction h with
  | nil => rfl
  | cons x xs ih =>
    rw [hpush]
    by_cases hc : res.score ≤ x.score
    · rw [if_pos hc]
      rfl
    · rw [if_neg hc, List.length_cons, List.length_cons, ih]

theorem mem_hpush {y res : SearchResult} {h : Heap} :
    y ∈ hpush res h ↔ y = res ∨ y ∈ h := by
  induction h with
  | nil => simp [hpush]
  | cons x xs ih =>
    rw [hpush]
    by_cases hc : res.score ≤ x.score
    · rw [if_pos hc]
      simp [List.mem_cons]
    · rw [if_neg hc]
      simp only [List.mem_cons, ih]
      tauto

theorem hpush_sorted {res : SearchResult} {h : Heap}
    (hs : List.Sorted (fun a b : SearchResult => a.score ≤ b.score) h) :
    List.Sorted (fun a b : SearchResult => a.score ≤ b.score) (hpush res h) := by
  induction h with
  | nil => simp [hpush]
  | cons x xs ih =>
    rw [List.sorted_cons] at hs
    rw [hpush]
    by_cases hc : res.score ≤ x.score
    · rw [if_pos hc, List.sorted_cons]
      constructor
      · intro b hb
        rw [List.mem_cons] at hb
        rcases hb with hb | hb
        · subst hb; exact hc
        · exact le_trans hc (hs.1 b hb)
      · rw [List.sorted_cons]; exact hs
    · rw [if_neg hc, List.sorted_cons]
      constructor
      · intro b hb
        rcases mem_hpush.mp hb with hb | hb
        · subst hb; exact le_of_not_le hc
        · exact hs.1 b hb
      · exact ih hs.2

theorem heapInsert_isSome (k : ℤ) (hk : 0 < k) (h : Heap) (res : SearchResult) :
    ∃ h', heapInsert k h res = some h' := by
  rw [heapInsert.eq_def]
  by_cases hlen : (h.length : ℤ) < k
  · rw [if_pos hlen]; exact ⟨_, rfl⟩
  · rw [if_neg hlen]
    cases h with
    | nil => simp at hlen; omega
    | cons m rest =>
      show ∃ h', (if m.score < res.score then some (hpush res rest)
        else some (m :: rest)) = some h'
      by_cases hc : m.score < res.score
      · rw [if_pos hc]; exact ⟨_, rfl⟩
      · rw [if_neg hc]; exact ⟨_, rfl⟩

theorem heapInsert_mem {k : ℤ} {h h' : Heap} {res : SearchResult}
    (he : heapInsert k h res = some h') : ∀ y ∈ h', y = res ∨ y ∈ h := by
  rw [heapInsert.eq_def] at he
  by_cases hlen : (h.length : ℤ) < k
  · rw [if_pos hlen] at he
    injection he with he; subst he
    intro y hy
    exact mem_hpush.mp hy
  · rw [if_neg hlen] at he
    cases h with
    | nil => cases he
    | cons m rest =>
      have he' : (if m.score < res.score then some (hpush res rest)
          else some (m :: rest)) = some h' := he
      by_cases hc : m.score < res.score
      · rw [if_pos hc] at he'
        injection he' with he'; subst he'
        intro y hy
        rcases mem_hpush.mp hy with hy | hy
        · exact Or.inl hy
        · exact Or.inr (List.mem_cons_of_mem _ hy)
      · rw [if_neg hc] at he'
        injection he' with he'; subst he'
        intro y hy
        exact Or.inr hy

theorem heapInsert_sorted_card {k : ℤ} {h h' : Heap} {res : SearchResult}
    (hs : List.Sorted (fun a b : SearchResult => a.score ≤ b.score) h)
    (hlen : (h.length : ℤ) ≤ k)
    (he : heapInsert k h res = some h') :
    List.Sorted (fun a b : SearchResult => a.score ≤ b.score) h' ∧ (h'.length : ℤ) ≤ k := by
  rw [heapInsert.eq_def] at he
  by_cases hl : (h.length : ℤ) < k
  · rw [if_pos hl] at he
    injection he with he; subst he
    refine ⟨hpush_sorted hs, ?_⟩
    rw [hpush_length]
    push_cast
    omega
  · rw [if_neg hl] at he
    cases h with
    | nil => cases he
    | cons m rest =>
      rw [List.sorted_cons] at hs
      have he' : (if m.score < res.score then some (hpush res rest)
          else some (m :: rest)) = some h' := he
      by_cases hc : m.score < res.score
      · rw [if_pos hc] at he'
        injection he' with he'; subst he'
        refine ⟨hpush_sorted hs.2, ?_⟩
        rw [hpush_length]
        simp only [List.length_cons] at hlen
        exact hlen
      · rw [if_neg hc] at he'
        injection he' with he'; subst he'
        exact ⟨List.sorted_cons.mpr hs, hlen⟩

theorem foldlM_option_isSome {α β : Type} (f : β → α → Option β)
    (hf : ∀ b a, ∃ b', f b a = some b') :
    ∀ (l : List α) (b : β), ∃ b', l.foldlM f b = some b' := by
  intro l
  induction l with
  | nil => intro b; exact ⟨b, rfl⟩
  | cons a l ih =>
    intro b
    obtain ⟨b1, hb1⟩ := hf b a
    obtain ⟨b2, hb2⟩ := ih b1
    exact ⟨b2, by rw [List.foldlM_cons, hb1]; exact hb2⟩

theorem foldlM_option_inv {α β : Type} (f : β → α → Option β) (P : β → Prop)
    (hf : ∀ b a b', f b a = some b' → P b → P b') :
    ∀ (l : List α) (b b' : β), l.foldlM f b = some b' → P b → P b' := by
  intro l
  induction l with
  | nil =>
    intro b b' he hb
    rw [List.foldlM_nil] at he
    injection he with he; subst he
    exact hb
  | cons a l ih =>
    intro b b' he hb
    rw [List.foldlM_cons] at he
    rcases hfa : f b a with _ | b1
    · rw [hfa] at he; simp at he
    · rw [hfa] at he
      exact ih b1 b' he (hf b a b1 hfa hb)

theorem foldlM_option_trace {α β γ : Type} (f : β → α → Option β)
    (El : γ → β → Prop) (Q : γ → α → Prop)
    (hf : ∀ b a b', f b a = some b' → ∀ y, El y b' → El y b ∨ Q y a) :
    ∀ (l : List α) (b b' : β), l.foldlM f b = some b' →
      ∀ y, El y b' → El y b ∨ ∃ a ∈ l, Q y a := by
  intro l
  induction l with
  | nil =>
    intro b b' he y hy
    rw [List.foldlM_nil] at he
    injection he with he; subst he
    exact Or.inl hy
  | cons a l ih =>
    intro b b' he y hy
    rw [List.foldlM_cons] at he
    rcases hfa : f b a with _ | b1
    · rw [hfa] at he; simp at he
    · rw [hfa] at he
      rcases ih b1 b' he y hy with hy1 | hy1
      · rcases hf b a b1 hfa y hy1 with hy2 | hy2
        · exact Or.inl hy2
        · exact Or.inr ⟨a, List.mem_cons_self a l, hy2⟩
      · obtain ⟨a', ha', hq⟩ := hy1
        exact Or.inr ⟨a', List.mem_cons_of_mem _ ha', hq⟩

theorem mapM_option_isSome {α β : Type} (f : α → Option β)
    (hf : ∀ a, ∃ b, f a = some b) :
    ∀ l : List α, ∃ bs, l.mapM f = some bs := by
  intro l
  induction l with
  | nil => exact ⟨[], rfl⟩
  | cons a l ih =>
    obtain ⟨b, hb⟩ := hf a
    obtain ⟨bs, hbs⟩ := ih
    refine ⟨b :: bs, ?_⟩
    rw [List.mapM_cons, hb]
    show (l.mapM f >>= fun xs => pure (b :: xs) : Option (List β)) = some (b :: bs)
    rw [hbs]
    rfl

theorem mapM_option_mem {α β : Type} (f : α → Option β) :
    ∀ (l : List α) (bs : List β), l.mapM f = some bs →
      ∀ b ∈ bs, ∃ a ∈ l, f a = some b := by
  intro l
  induction l with
  | nil =>
    intro bs he b hb
    rw [List.mapM_nil] at he
    injection he with he; subst he
    simp at hb
  | cons a l ih =>
    intro bs he b hb
    rw [List.mapM_cons] at he
    rcases hfa : f a with _ | b1
    · rw [hfa] at he; simp at he
    · rw [hfa] at he
      have he' : (l.mapM f >>= fun xs => pure (b1 :: xs) : Option (List β)) = some bs := he
      rcases hml : l.mapM f with _ | bs1
      · rw [hml] at he'; simp at he'
      · rw [hml] at he'
        have hbs : b1 :: bs1 = bs := by simpa using he'
        subst hbs
        rw [List.mem_cons] at hb
        rcases hb with hb | hb
        · exact ⟨a, List.mem_cons_self a l, by rw [hb]; exact hfa⟩
        · obtain ⟨a', ha', hfa'⟩ := ih bs1 hml b hb
          exact ⟨a', List.mem_cons_of_mem _ ha', hfa'⟩

theorem considerRecord_isSome (q : Vec) (k : ℤ) (hk : 0 < k) (ns fk fv : String)
    (h : Heap) (rec : Record) : ∃ h', considerRecord q k ns fk fv h rec = some h' := by
  rw [considerRecord]
  by_cases h1 : ns ≠ "" ∧ rec.nspace ≠ ns
  · rw [if_pos h1]; exact ⟨h, rfl⟩
  · rw [if_neg h1]
    by_cases h2 : fk ≠ "" ∧ metaLookup rec.metadata fk ≠ fv
    · rw [if_pos h2]; exact ⟨h, rfl⟩
    · rw [if_neg h2]; exact heapInsert_isSome k hk h _

theorem considerRecord_mem {q : Vec} {k : ℤ} {ns fk fv : String} {h h' : Heap}
    {rec : Record} (he : considerRecord q k ns fk fv h rec = some h') :
    ∀ y, y ∈ h' → y ∈ h ∨
      ((ns ≠ "" → rec.nspace = ns) ∧ (fk ≠ "" → metaLookup rec.metadata fk = fv) ∧
        y = mkResult q rec) := by
  rw [considerRecord] at he
  by_cases h1 : ns ≠ "" ∧ rec.nspace ≠ ns
  · rw [if_pos h1] at he
    injection he with he; subst he
    exact fun y hy => Or.inl hy
  · rw [if_neg h1] at he
    by_cases h2 : fk ≠ "" ∧ metaLookup rec.metadata fk ≠ fv
    · rw [if_pos h2] at he
      injection he with he; subst he
      exact fun y hy => Or.inl hy
    · rw [if_neg h2] at he
      intro y hy
      rcases heapInsert_mem he y hy with hy' | hy'
      · refine Or.inr ⟨?_, ?_, hy'⟩
        · intro hns
          by_contra hne
          exact h1 ⟨hns, hne⟩
        · intro hfk
          by_contra hne
          exact h2 ⟨hfk, hne⟩
      · exact Or.inl hy'

theorem considerRecord_sorted_card {q : Vec} {k : ℤ} {ns fk fv : String}
    {h h' : Heap} {rec : Record}
    (he : considerRecord q k ns fk fv h rec = some h')
    (hP : List.Sorted (fun a b : SearchResult => a.score ≤ b.score) h ∧ (h.length : ℤ) ≤ k) :
    List.Sorted (fun a b : SearchResult => a.score ≤ b.score) h' ∧ (h'.length : ℤ) ≤ k := by
  rw [considerRecord] at he
  by_cases h1 : ns ≠ "" ∧ rec.nspace ≠ ns
  · rw [if_pos h1] at he
    injection he with he; subst he; exact hP
  · rw [if_neg h1] at he
    by_cases h2 : fk ≠ "" ∧ metaLookup rec.metadata fk ≠ fv
    · rw [if_pos h2] at he
      injection he with he; subst he; exact hP
    · rw [if_neg h2] at he
      exact heapInsert_sorted_card hP.1 hP.2 he

theorem mergeStep_mem {k : ℤ} : ∀ (c : List SearchResult) (h h' : Heap),
    c.foldlM (heapInsert k) h = some h' → ∀ y, y ∈ h' → y ∈ h ∨ y ∈ c := by
  intro c h h' he y hy
  have htr := foldlM_option_trace (heapInsert k)
    (fun (y : SearchResult) (h : Heap) => y ∈ h) (fun y res => y = res)
    (fun b a b' hb y2 hy2 => (heapInsert_mem hb y2 hy2).symm) c h h' he y hy
  rcases htr with htr | htr
  · exact Or.inl htr
  · obtain ⟨a, ha, hq⟩ := htr
    rw [hq]
    exact Or.inr ha

theorem mergeFold_mem {k : ℤ} : ∀ (chunks : List (List SearchResult)) (h h' : Heap),
    chunks.foldlM (fun h c => c.foldlM (heapInsert k) h) h = some h' →
    ∀ y, y ∈ h' → y ∈ h ∨ ∃ c ∈ chunks, y ∈ c := by
  intro chunks h h' he y hy
  exact foldlM_option_trace (fun h c => c.foldlM (heapInsert k) h)
    (fun (y : SearchResult) (h : Heap) => y ∈ h) (fun y c => y ∈ c)
    (fun b a b' hb y2 hy2 => mergeStep_mem a b b' hb y2 hy2)
    chunks h h' he y hy

theorem scanShard_isSome (q : Vec) (k : ℤ) (hk : 0 < k) (ns fk fv : String)
    (recs : List Record) : ∃ out, scanShard q k ns fk fv recs = some out := by
  obtain ⟨h', hh⟩ := foldlM_option_isSome (considerRecord q k ns fk fv)
    (fun h rec => considerRecord_isSome q k hk ns fk fv h rec) recs ([] : Heap)
  exact ⟨h'.reverse, by rw [scanShard, hh]; rfl⟩

theorem scanShard_mem {q : Vec} {k : ℤ} {ns fk fv : String} {recs : List Record}
    {out : List SearchResult} (he : scanShard q k ns fk fv recs = some out) :
    ∀ y ∈ out, ∃ rec ∈ recs,
      (ns ≠ "" → rec.nspace = ns) ∧ (fk ≠ "" → metaLookup rec.metadata fk = fv) ∧
      y = mkResult q rec := by
  rw [scanShard] at he
  rcases hf : recs.foldlM (considerRecord q k ns fk fv) ([] : Heap) with _ | h'
  · rw [hf] at he; simp at he
  · rw [hf] at he
    have he' : some h'.reverse = some out := he
    injection he' with he'
    intro y hy
    rw [← he', List.mem_reverse] at hy
    have htr := foldlM_option_trace (considerRecord q k ns fk fv)
      (fun (y : SearchResult) (h : Heap) => y ∈ h)
      (fun y rec => (ns ≠ "" → rec.nspace = ns) ∧
        (fk ≠ "" → metaLookup rec.metadata fk = fv) ∧ y = mkResult q rec)
      (fun b a b' hb y2 hy2 => considerRecord_mem hb y2 hy2) recs ([] : Heap) h' hf y hy
    rcases htr with htr | htr
    · simp at htr
    · obtain ⟨rec, hrec, hq⟩ := htr
      exact ⟨rec, hrec, hq⟩

/-- Claim C1: for every store state, query vector and `k > 0` (with at least
one worker, as `runtime.NumCPU` guarantees), `Search` completes and returns a
list of at most `k` results sorted by non-increasing score. -/
theorem search_topk_sorted (vs : VectorStore) (query : Vec) (k : ℤ)
    (ns fk fv : String) (nw : ℕ) (hk : 0 < k) (hnw : 0 < nw) :
    ∃ l, Search vs query k ns fk fv nw = some l ∧ (l.length : ℤ) ≤ k ∧
      List.Sorted (fun a b : SearchResult => b.score ≤ a.score) l := by
  obtain ⟨chunks, hchunks⟩ :=
    mapM_option_isSome
      (fun r : ℕ × ℕ => scanShard (Normalize query) k ns fk fv
        ((vs.records.drop r.1).take (r.2 - r.1)))
      (fun r => scanShard_isSome (Normalize query) k hk ns fk fv
        ((vs.records.drop r.1).take (r.2 - r.1)))
      (shardRanges vs.records.length ((vs.records.length + nw - 1) / nw) nw)
  obtain ⟨final, hfinal⟩ :=
    foldlM_option_isSome (fun h chunk => chunk.foldlM (heapInsert k) h)
      (fun h c => foldlM_option_isSome (heapInsert k) (heapInsert_isSome k hk) c h)
      chunks ([] : Heap)
  have hP : List.Sorted (fun a b : SearchResult => a.score ≤ b.score) final ∧
      ((final.length : ℤ) ≤ k) :=
    foldlM_option_inv (fun h chunk => chunk.foldlM (heapInsert k) h)
      (fun h => List.Sorted (fun a b : SearchResult => a.score ≤ b.score) h ∧
        (h.length : ℤ) ≤ k)
      (fun b a b' hb hPb =>
        foldlM_option_inv (heapInsert k)
          (fun h => List.Sorted (fun a b : SearchResult => a.score ≤ b.score) h ∧
            (h.length : ℤ) ≤ k)
          (fun b2 a2 b2' hb2 hPb2 => heapInsert_sorted_card hPb2.1 hPb2.2 hb2)
          a b b' hb hPb)
      chunks ([] : Heap) final hfinal ⟨List.sorted_nil, by simp; omega⟩
  refine ⟨final.reverse, ?_, ?_, ?_⟩
  · show ((shardRanges vs.records.length ((vs.records.length + nw - 1) / nw) nw).mapM
        (fun r : ℕ × ℕ => scanShard (Normalize query) k ns fk fv
          ((vs.records.drop r.1).take (r.2 - r.1))) >>=
      fun chunks =>
        chunks.foldlM (fun h chunk => chunk.foldlM (heapInsert k) h) ([] : Heap) >>=
          fun final => some final.reverse) = some final.reverse
    rw [hchunks]
    show (chunks.foldlM (fun h chunk => chunk.foldlM (heapInsert k) h) ([] : Heap) >>=
      fun final => some final.reverse) = some final.reverse
    rw [hfinal]
    rfl
  · rw [List.length_reverse]; exact hP.2
  · exact List.pairwise_reverse.mpr hP.1

/-- Witness for C1 on the one-record store `st1` with `k = 1`. -/
theorem search_topk_sorted_witness :
    (0 : ℤ) < 1 ∧ 0 < 1 ∧
      ∃ l, Search st1 [] 1 "" "" "" 1 = some l ∧ (l.length : ℤ) ≤ 1 ∧
        List.Sorted (fun a b : SearchResult => b.score ≤ a.score) l :=
  ⟨by decide, by decide, search_topk_sorted st1 [] 1 "" "" "" 1 (by decide) (by decide)⟩

/-- Claim C3: every result returned by `Search` identifies a record of the
store satisfying the namespace filter and the metadata-equality filter (a
missing metadata key reads as `""`). -/
theorem search_respects_filters (vs : VectorStore) (query : Vec) (k : ℤ)
    (ns fk fv : String) (nw : ℕ) (l : List SearchResult)
    (hl : Search vs query k ns fk fv nw = some l) :
    ∀ r ∈ l, ∃ rec ∈ vs.records, rec.id = r.id ∧
      (ns ≠ "" → rec.nspace = ns) ∧ (fk ≠ "" → metaLookup rec.metadata fk = fv) := by
  have hl' : ((shardRanges vs.records.length ((vs.records.length + nw - 1) / nw) nw).mapM
      (fun r : ℕ × ℕ => scanShard (Normalize query) k ns fk fv
        ((vs.records.drop r.1).take (r.2 - r.1))) >>=
    fun chunks =>
      chunks.foldlM (fun h chunk => chunk.foldlM (heapInsert k) h) ([] : Heap) >>=
        fun final => some final.reverse) = some l := hl
  rcases hm : (shardRanges vs.records.length ((vs.records.length + nw - 1) / nw) nw).mapM
      (fun r : ℕ × ℕ => scanShard (Normalize query) k ns fk fv
        ((vs.records.drop r.1).take (r.2 - r.1))) with _ | chunks
  · rw [hm] at hl'; simp at hl'
  · rw [hm] at hl'
    have hl2 : (chunks.foldlM (fun h chunk => chunk.foldlM (heapInsert k) h) ([] : Heap) >>=
        fun final => some final.reverse) = some l := hl'
    rcases hf : chunks.foldlM (fun h chunk => chunk.foldlM (heapInsert k) h) ([] : Heap)
        with _ | final
    · rw [hf] at hl2; simp at hl2
    · rw [hf] at hl2
      have hrev : some final.reverse = some l := hl2
      injection hrev with hrev
      intro r hr
      rw [← hrev, List.mem_reverse] at hr
      rcases mergeFold_mem chunks ([] : Heap) final hf r hr with hr2 | hr2
      · simp at hr2
      · obtain ⟨c, hc, hrc⟩ := hr2
        obtain ⟨range, _, hrange⟩ := mapM_option_mem
          (fun r : ℕ × ℕ => scanShard (Normalize query) k ns fk fv
            ((vs.records.drop r.1).take (r.2 - r.1))) _ chunks hm c hc
        obtain ⟨rec, hrec, hfil1, hfil2, hmk⟩ := scanShard_mem hrange r hrc
        refine ⟨rec, ?_, ?_, hfil1, hfil2⟩
        · exact List.drop_subset _ _ (List.take_subset _ _ hrec)
        · rw [hmk]; rfl

theorem normalize_nil : Normalize ([] : Vec) = [] := by
  rw [Normalize]
  by_cases h : magnitude ([] : Vec) = 0
  · rw [if_pos h]
  · rw [if_neg h]; rfl

theorem dotProduct_nil : DotProduct ([] : Vec) ([] : Vec) = 0 := by
  rw [DotProduct, dotUnrolledFrom, dotTailFrom]
  norm_num

theorem search_st1_single : Search st1 [] 1 "" "" "" 1 = some [⟨"a", (0 : ℝ)⟩] := by
  have h1 : Search st1 [] 1 "" "" "" 1 = some [mkResult (Normalize []) recA] := rfl
  rw [h1, mkResult, normalize_nil,
    show recA.vector = ([] : Vec) from rfl, dotProduct_nil]
  rfl

/-- Witness for C3: on `st1` the single returned result is backed by the
record `recA`, which passes the (empty, i.e. disabled) filters. -/
theorem search_respects_filters_witness :
    Search st1 [] 1 "" "" "" 1 = some [⟨"a", (0 : ℝ)⟩] ∧
    (∃ rec ∈ st1.records, rec.id = (⟨"a", (0 : ℝ)⟩ : SearchResult).id ∧
      (("" : String) ≠ "" → rec.nspace = "") ∧
      (("" : String) ≠ "" → metaLookup rec.metadata "" = "")) :=
  ⟨search_st1_single,
    search_respects_filters st1 [] 1 "" "" "" 1 _ search_st1_single
      ⟨"a", (0 : ℝ)⟩ (List.mem_singleton.mpr rfl)⟩

/-- Claim C2 exhibit: with `k = 0` (and likewise `k = -1`) and a record that
passes the filters, the shard worker reaches `(*h)[0]` on an empty heap, an
index-out-of-range panic (`none` in this model), instead of returning an
empty result. -/
theorem search_k_zero_panics :
    Search st1 [] 0 "" "" "" 1 = none ∧ Search st1 [] (-1) "" "" "" 1 = none :=
  ⟨rfl, rfl⟩
